import Mathlib

/-!
Verification of the embedding ingestion pipeline and vector similarity
engine of the `fashion_image_processor` repository.

The Python services are shallowly embedded: vector components are modelled
as rationals (the code uses IEEE float32; exact rational arithmetic keeps
every predicate decidable and preserves the ordering facts at issue),
the two parallel Python lists of `FAISSService` become two Lean lists, and
each fallible method returns its Python value (`bool` success flags,
`Option` for methods returning `None` on failure).  The external
`faiss.IndexFlatL2` engine is modelled by its documented exact brute-force
semantics: `add` appends rows, `reconstruct i` returns the i-th stored row,
and `search q k` returns the k smallest squared-L2 distances in ascending
order together with their row indices.
-/

namespace FashionProc

/-- Embedding vectors: fixed-length sequences of numbers. -/
abbrev Vec := List ℚ

/-- State of `FAISSService` (src/app/services/faiss_service.py).
`dimension` is the constructor argument (default 2048), `vectors` holds the
rows of the wrapped `faiss.IndexFlatL2` in insertion order, and
`productIds` is the parallel Python list `self.product_ids` mapping FAISS
row positions to product ids. -/
structure FAISSState where
  dimension : ℕ
  productIds : List ℤ
  vectors : List Vec
deriving DecidableEq

/-- `FAISSService.save_embedding` (faiss_service.py lines 31-62).  The
method validates the vector length against `self.dimension`; on mismatch
the raised `ValueError` is caught and the method returns `False` with the
state untouched.  On success it calls `index.add` (appending the row) and
`self.product_ids.append(product_id)` and returns `True`. -/
def save_embedding (s : FAISSState) (product_id : ℤ) (embedding : Vec) :
    Bool × FAISSState :=
  if embedding.length = s.dimension then
    (true, { s with productIds := s.productIds ++ [product_id],
                    vectors := s.vectors ++ [embedding] })
  else
    (false, s)

/-- `FAISSService.get_embedding` (faiss_service.py lines 64-83): if
`product_id` is absent from `self.product_ids` it returns `None`;
otherwise it takes `idx = self.product_ids.index(product_id)` (the first
occurrence) and returns `self.index.reconstruct(idx)`.  A `reconstruct`
on a row index beyond the stored rows raises, the blanket `except` turns
that into `None`. -/
def get_embedding (s : FAISSState) (product_id : ℤ) : Option Vec :=
  if product_id ∈ s.productIds then
    if s.productIds.indexOf product_id < s.vectors.length then
      some (s.vectors.getD (s.productIds.indexOf product_id) [])
    else none
  else none

/-- Squared L2 distance between two vectors, the metric computed by
`faiss.IndexFlatL2` (the `search` call in faiss_service.py line 104
returns squared Euclidean distances). -/
def sqDist (q v : Vec) : ℚ := ((q.zip v).map (fun p => (p.1 - p.2) ^ 2)).sum

/-- The distance-to-similarity conversion of
`FAISSService.find_similar_products` (faiss_service.py line 111):
`score = 1.0 / (1.0 + dist)`. -/
def distScore (d : ℚ) : ℚ := 1 / (1 + d)

/-- Ordering of (row index, distance) pairs by ascending distance, the
order in which `faiss.IndexFlatL2.search` reports its results. -/
def distRel (a b : ℕ × ℚ) : Prop := a.2 ≤ b.2

instance : DecidableRel distRel :=
  fun a b => inferInstanceAs (Decidable (a.2 ≤ b.2))

instance : IsTotal (ℕ × ℚ) distRel := ⟨fun a b => le_total a.2 b.2⟩

instance : IsTrans (ℕ × ℚ) distRel := ⟨fun _ _ _ => le_trans⟩

/-- Model of `self.index.search(embedding, top_n)` on an `IndexFlatL2`
holding `vectors`: every stored row is paired with its squared L2 distance
to the query, the pairs are sorted by ascending distance and the first
`top_n` are reported.  (When fewer than `top_n` rows are stored FAISS pads
with index `-1`, which the caller skips; taking at most `top_n` real rows
models the same result.) -/
def searchIndex (vectors : List Vec) (q : Vec) (top_n : ℕ) : List (ℕ × ℚ) :=
  (List.insertionSort distRel
    ((List.range vectors.length).map (fun i => (i, sqDist q (vectors.getD i []))))).take top_n

/-- `FAISSService.find_similar_products` (faiss_service.py lines 85-122):
searches the index, converts each reported distance to
`score = 1/(1+dist)`, keeps the results with `score >= score_threshold`
and pairs them with `self.product_ids[idx]`.  An out-of-range list access
(possible only when `product_ids` is shorter than the stored rows) raises
and the blanket `except` returns `[]`. -/
def find_similar_products (s : FAISSState) (embedding : Vec) (top_n : ℕ)
    (score_threshold : ℚ) : List (ℤ × ℚ) :=
  let sr := searchIndex s.vectors embedding top_n
  if sr.all (fun r => decide (r.1 < s.productIds.length)) then
    (sr.filter (fun r => decide (score_threshold ≤ distScore r.2))).map
      (fun r => (s.productIds.getD r.1 0, distScore r.2))
  else []

/-- `FAISSService.find_similar_by_id` (faiss_service.py lines 124-148):
looks up the reference embedding with `get_embedding`; when that returns
`None` the method returns `[]`, otherwise it forwards to
`find_similar_products` unchanged — in particular it applies no filter
removing the reference `product_id` from the results. -/
def find_similar_by_id (s : FAISSState) (product_id : ℤ) (top_n : ℕ)
    (score_threshold : ℚ) : List (ℤ × ℚ) :=
  match get_embedding s product_id with
  | none => []
  | some e => find_similar_products s e top_n score_threshold

/-- `FAISSService.save_embeddings_batch` (faiss_service.py lines 150-181):
returns `False` untouched when the id list is empty or the two lists have
different lengths; otherwise `index.add(embeddings)` appends all rows and
`self.product_ids.extend(product_ids)` appends all ids.  `index.add`
asserts that every row has the index dimension; a violation raises, is
caught, and the method returns `False` with the state untouched. -/
def save_embeddings_batch (s : FAISSState) (product_ids : List ℤ)
    (embeddings : List Vec) : Bool × FAISSState :=
  if product_ids.length = 0 ∨ product_ids.length ≠ embeddings.length then
    (false, s)
  else if embeddings.all (fun v => decide (v.length = s.dimension)) then
    (true, { s with productIds := s.productIds ++ product_ids,
                    vectors := s.vectors ++ embeddings })
  else
    (false, s)

/-- `FAISSService.delete_embedding` (faiss_service.py lines 183-220):
returns `False` when the id is absent; otherwise computes
`keep_indices = [i for i, pid in enumerate(self.product_ids) if pid != product_id]`,
resets to an empty index when nothing is kept, and otherwise rebuilds the
index from `reconstruct(i)` for the kept positions and keeps the matching
ids.  A `reconstruct` beyond the stored rows raises and the method returns
`False` untouched. -/
def delete_embedding (s : FAISSState) (product_id : ℤ) : Bool × FAISSState :=
  if product_id ∈ s.productIds then
    let keep := (List.range s.productIds.length).filter
      (fun i => decide (s.productIds.getD i 0 ≠ product_id))
    if keep = [] then
      (true, { s with productIds := [], vectors := [] })
    else if keep.all (fun i => decide (i < s.vectors.length)) then
      (true, { s with productIds := keep.map (fun i => s.productIds.getD i 0),
                      vectors := keep.map (fun i => s.vectors.getD i []) })
    else
      (false, s)
  else
    (false, s)

/-- `FAISSService.load_index` (faiss_service.py lines 260-280): when both
durable files exist their parsed contents replace the in-memory index and
id list; otherwise (or on a read error, which resets to an empty index
that this model folds into the absent case) the state is kept. -/
def load_index (s : FAISSState) (disk : Option (List ℤ × List Vec)) :
    FAISSState :=
  match disk with
  | some d => { s with productIds := d.1, vectors := d.2 }
  | none => s

/-- The parallel-lists representation invariant of `FAISSService`: the
Python list `self.product_ids` has one entry per row stored in the FAISS
index. -/
def lengthInv (s : FAISSState) : Prop :=
  s.productIds.length = s.vectors.length

/-- `ResNetEmbedder.get_embedding` (src/app/resnet/model.py lines 48-75).
The image decoder (`PIL.Image.open` + `convert("RGB")` + transform) and
the feature-extraction model are opaque collaborators, passed here as
functions; `decode` returns `none` exactly when the source code's decoding
raises, in which case the blanket `except` makes the method return `None`.
The model output is returned as-is: the method performs no validation of
the output vector's length. -/
def resnet_get_embedding {β γ : Type} (decode : β → Option γ)
    (model : γ → Vec) (image_data : β) : Option Vec :=
  match decode image_data with
  | some image => some (model image)
  | none => none

/-- `num_pages_to_actually_process` of `generate_embeddings_old`
(src/app/handlers/embedding_handler.py lines 134-139): the pages from
`start_page` to the last API page, clamped by the optional
`MAX_PAGES_OVERALL` cap. -/
def pagesToProcess (total_api_pages start_page : ℤ)
    (max_pages_overall : Option ℤ) : ℤ :=
  let pages_from_start := total_api_pages - start_page + 1
  match max_pages_overall with
  | some cap => min pages_from_start cap
  | none => pages_from_start

/-- Ceiling division `math.ceil(p / q)` for integers with `q > 0`
(embedding_handler.py line 152). -/
def ceilDiv (p q : ℤ) : ℤ := (p + q - 1) / q

/-- The dispatch loop of `generate_embeddings_old` (embedding_handler.py
lines 156-167), returning the `(chunk_start_page, num_pages_for_this_chunk)`
pairs for which a task is dispatched.  `i` is the loop counter and `fuel`
the number of remaining iterations (`actual_num_dispatch_tasks - i`). -/
def chunkLoop (total_api_pages start_page pages_per_task pages_to_process : ℤ) :
    ℕ → ℕ → List (ℤ × ℤ)
  | _, 0 => []
  | i, fuel + 1 =>
    let chunk_start_page := start_page + (i : ℤ) * pages_per_task
    if chunk_start_page > total_api_pages then []
    else
      let num_pages_for_this_chunk :=
        min (min pages_per_task (total_api_pages - chunk_start_page + 1))
          (pages_to_process - (i : ℤ) * pages_per_task)
      if num_pages_for_this_chunk ≤ 0 then
        chunkLoop total_api_pages start_page pages_per_task pages_to_process
          (i + 1) fuel
      else
        (chunk_start_page, num_pages_for_this_chunk) ::
          chunkLoop total_api_pages start_page pages_per_task pages_to_process
            (i + 1) fuel

/-- The WorkUnit partition computed by `generate_embeddings_old`
(embedding_handler.py lines 125-167): no work when `start_page` exceeds the
last API page or no pages remain after clamping; otherwise
`actual_num_dispatch_tasks = min(num_target_tasks, pages_to_process)`
(forced to 1 if nonpositive while work remains),
`pages_per_task = ceil(pages_to_process / actual_num_dispatch_tasks)`, and
the dispatch loop walks forward in strides of `pages_per_task`. -/
def workUnits (total_api_pages start_page num_target_tasks : ℤ)
    (max_pages_overall : Option ℤ) : List (ℤ × ℤ) :=
  if start_page > total_api_pages then []
  else
    let P := pagesToProcess total_api_pages start_page max_pages_overall
    if P ≤ 0 then []
    else
      let actual0 := min num_target_tasks P
      let actual := if actual0 ≤ 0 then 1 else actual0
      chunkLoop total_api_pages start_page (ceilDiv P actual) P 0 actual.toNat

/-- The set of catalog pages covered by one WorkUnit, as the list
`range(chunk_start_page, chunk_start_page + num_pages_for_this_chunk)`
fetched by the chunk body (embedding_handler.py line 170). -/
def pagesOf (u : ℤ × ℤ) : List ℤ :=
  (List.range u.2.toNat).map (fun (j : ℕ) => u.1 + (j : ℤ))

/-- C1 is false on the code: `save_embedding` appends unconditionally, so
saving twice for the same id leaves two entries for that id rather than
one, and `get_embedding` then returns the first saved vector, not the
second. -/
theorem c1_counterexample :
    ((save_embedding (save_embedding (⟨2, [], []⟩ : FAISSState) 1 [0, 0]).2
        1 [1, 1]).2.productIds.count 1 = 2
      ∧ get_embedding (save_embedding (save_embedding (⟨2, [], []⟩ : FAISSState) 1
        [0, 0]).2 1 [1, 1]).2 1 = some [0, 0])
    ∧ ¬ ((save_embedding (save_embedding (⟨2, [], []⟩ : FAISSState) 1 [0, 0]).2
        1 [1, 1]).2.productIds.count 1 = 1) := by
  refine ⟨⟨?_, ?_⟩, ?_⟩ <;>
    norm_num [save_embedding, get_embedding]

/-- C1 (amended): two `save_embedding` calls for the same id with D-length
vectors append two fresh entries for that id (no overwrite, no
deduplication), and when the id was not indexed before, `get_embedding`
afterwards returns the first saved vector `v`, not `v2`. -/
theorem c1_upsert_appends (s : FAISSState) (pid : ℤ) (v v2 : Vec)
    (hv : v.length = s.dimension) (hv2 : v2.length = s.dimension) :
    (save_embedding (save_embedding s pid v).2 pid v2).2.productIds.count pid
      = s.productIds.count pid + 2
    ∧ (pid ∉ s.productIds → s.productIds.length = s.vectors.length →
        get_embedding (save_embedding (save_embedding s pid v).2 pid v2).2 pid
          = some v) := by
  have hids : (save_embedding (save_embedding s pid v).2 pid v2).2.productIds
      = s.productIds ++ [pid, pid] := by
    simp [save_embedding, hv, hv2]
  have hvecs : (save_embedding (save_embedding s pid v).2 pid v2).2.vectors
      = s.vectors ++ [v, v2] := by
    simp [save_embedding, hv, hv2]
  constructor
  · rw [hids, List.count_append]
    simp
  · intro hfresh hlen
    have hidx : (s.productIds ++ [pid, pid]).indexOf pid = s.productIds.length := by
      rw [List.indexOf_append_of_not_mem hfresh]
      simp
    rw [get_embedding, hids, hvecs, hidx]
    have hmem : pid ∈ s.productIds ++ [pid, pid] := by simp
    rw [if_pos hmem,
      if_pos (by simp [hlen, Nat.lt_succ_of_le, Nat.le_succ_of_le]),
      List.getD_append_right s.vectors [v, v2] [] s.productIds.length (le_of_eq hlen.symm)]
    simp [hlen]

/-- C1 witness: the amended statement at a concrete state. -/
theorem c1_witness :
    (save_embedding (save_embedding (⟨2, [9], [[5, 5]]⟩ : FAISSState) 1 [0, 0]).2
        1 [1, 1]).2.productIds.count 1 = (0 : ℕ) + 2
    ∧ get_embedding (save_embedding (save_embedding (⟨2, [9], [[5, 5]]⟩ : FAISSState) 1
        [0, 0]).2 1 [1, 1]).2 1 = some [0, 0] := by
  have h := c1_upsert_appends ⟨2, [9], [[5, 5]]⟩ 1 [0, 0] [1, 1]
    (by norm_num) (by norm_num)
  exact ⟨h.1, h.2 (by norm_num) (by norm_num)⟩

/-- C5 is false on the code: when the id is already indexed, a fresh
`save_embedding` appends a second entry and `get_embedding` keeps
returning the originally stored vector, not the newly saved one. -/
theorem c5_counterexample :
    get_embedding (save_embedding (⟨2, [5], [[1, 1]]⟩ : FAISSState) 5 [2, 2]).2 5
      = some [1, 1]
    ∧ ¬ (get_embedding (save_embedding (⟨2, [5], [[1, 1]]⟩ : FAISSState) 5
        [2, 2]).2 5 = some [2, 2]) := by
  constructor <;> norm_num [save_embedding, get_embedding]

/-- C5 (amended): the upsert/get round trip holds for ids not already
present: for a D-length vector `v` and an id absent from a
length-consistent index, `save_embedding` then `get_embedding` returns
`v`. -/
theorem c5_roundtrip_fresh (s : FAISSState) (pid : ℤ) (v : Vec)
    (hv : v.length = s.dimension) (hfresh : pid ∉ s.productIds)
    (hlen : s.productIds.length = s.vectors.length) :
    get_embedding (save_embedding s pid v).2 pid = some v := by
  have hids : (save_embedding s pid v).2.productIds = s.productIds ++ [pid] := by
    simp [save_embedding, hv]
  have hvecs : (save_embedding s pid v).2.vectors = s.vectors ++ [v] := by
    simp [save_embedding, hv]
  have hidx : (s.productIds ++ [pid]).indexOf pid = s.productIds.length := by
    rw [List.indexOf_append_of_not_mem hfresh]
    simp
  rw [get_embedding, hids, hvecs, hidx]
  have hmem : pid ∈ s.productIds ++ [pid] := by simp
  rw [if_pos hmem, if_pos (by simp [hlen]),
    List.getD_append_right s.vectors [v] [] s.productIds.length (le_of_eq hlen.symm)]
  simp [hlen]

/-- C5 witness: the round trip at a concrete fresh id. -/
theorem c5_witness :
    get_embedding (save_embedding (⟨2, [9], [[5, 5]]⟩ : FAISSState) 7 [3, 4]).2 7
      = some [3, 4] :=
  c5_roundtrip_fresh ⟨2, [9], [[5, 5]]⟩ 7 [3, 4] (by norm_num) (by norm_num)
    (by norm_num)

/-- C7 is false on the code: querying similar products for an id that is
not in the index returns the empty list as a normal successful result
(`find_similar_by_id` catches the missing-id condition and returns `[]`;
no `NotFoundError` is raised — the type itself does not exist in the
repository). -/
theorem c7_counterexample :
    find_similar_by_id (⟨2048, [], []⟩ : FAISSState) 42 5 (7/10) = [] := by
  norm_num [find_similar_by_id, get_embedding]

/-- C7 (amended): for every id absent from the index,
`find_similar_by_id` returns the empty list (an empty successful result),
not an error. -/
theorem c7_missing_id_empty (s : FAISSState) (pid : ℤ) (top_n : ℕ) (t : ℚ)
    (habs : pid ∉ s.productIds) :
    find_similar_by_id s pid top_n t = [] := by
  rw [find_similar_by_id, get_embedding, if_neg habs]

/-- C7 witness: the amended statement at a concrete absent id. -/
theorem c7_witness :
    find_similar_by_id (⟨2, [3], [[1, 1]]⟩ : FAISSState) 4 5 (7/10) = [] :=
  c7_missing_id_empty ⟨2, [3], [[1, 1]]⟩ 4 5 (7/10) (by norm_num)

/-- C8: `save_embedding` rejects a vector whose length differs from the
configured dimension, returning `False` with the state — and hence any
existing entry for that id — exactly as it was. -/
theorem c8_reject_wrong_length (s : FAISSState) (pid : ℤ) (v : Vec)
    (hv : v.length ≠ s.dimension) :
    save_embedding s pid v = (false, s) := by
  rw [save_embedding, if_neg hv]

/-- C8 witness: rejecting a wrong-length vector at a concrete state. -/
theorem c8_witness :
    save_embedding (⟨2, [9], [[1, 1]]⟩ : FAISSState) 3 [1, 2, 3]
      = (false, (⟨2, [9], [[1, 1]]⟩ : FAISSState)) :=
  c8_reject_wrong_length ⟨2, [9], [[1, 1]]⟩ 3 [1, 2, 3] (by norm_num)

/-- C10: `save_embeddings_batch` returns `False` and leaves the state
unchanged when the id list is empty or the id and vector lists have
different lengths. -/
theorem c10_batch_guard (s : FAISSState) (ids : List ℤ) (vecs : List Vec)
    (h : ids = [] ∨ ids.length ≠ vecs.length) :
    save_embeddings_batch s ids vecs = (false, s) := by
  rw [save_embeddings_batch, if_pos]
  rcases h with h | h
  · exact Or.inl (by simp [h])
  · exact Or.inr h

/-- C10 witness: the guard at concrete mismatched inputs. -/
theorem c10_witness :
    save_embeddings_batch (⟨2, [9], [[1, 1]]⟩ : FAISSState) [1, 2] [[0, 0]]
      = (false, (⟨2, [9], [[1, 1]]⟩ : FAISSState)) :=
  c10_batch_guard ⟨2, [9], [[1, 1]]⟩ [1, 2] [[0, 0]] (Or.inr (by norm_num))

/-- C6 is false on the code: `ResNetEmbedder.get_embedding` performs no
length validation of the model output — with a model producing a 3-long
vector it returns that vector as a normal `some` result (no
`InvalidEmbeddingError`; the type does not exist in the repository) — and
on undecodable bytes it returns `none` instead of raising
`InvalidImageError`. -/
theorem c6_counterexample :
    resnet_get_embedding (fun _ : ℕ => some 0) (fun _ : ℕ => ([1, 2, 3] : Vec)) 0
      = some [1, 2, 3]
    ∧ ([1, 2, 3] : Vec).length ≠ 2048
    ∧ resnet_get_embedding (fun _ : ℕ => (none : Option ℕ))
        (fun _ : ℕ => ([] : Vec)) 0 = none := by
  refine ⟨?_, ?_, ?_⟩ <;> norm_num [resnet_get_embedding]

/-- C6 (amended): `get_embedding` returns exactly the model's output on a
decodable input (unvalidated: its length is whatever the model produced)
and returns `none` — without raising — when decoding fails. -/
theorem c6_embed_unvalidated {β γ : Type} (decode : β → Option γ)
    (model : γ → Vec) (b : β) :
    (∀ img, decode b = some img →
      resnet_get_embedding decode model b = some (model img))
    ∧ (decode b = none → resnet_get_embedding decode model b = none) := by
  constructor
  · intro img h
    rw [resnet_get_embedding, h]
  · intro h
    rw [resnet_get_embedding, h]

/-- C6 witness: the amended statement at a concrete decoder and model. -/
theorem c6_witness :
    resnet_get_embedding (fun _ : ℕ => some 5) (fun n : ℕ => ([(n : ℚ)] : Vec)) 0
      = some [(5 : ℚ)] :=
  (c6_embed_unvalidated (fun _ : ℕ => some 5) (fun n : ℕ => ([(n : ℚ)] : Vec)) 0).1
    5 rfl

/-- Squared L2 distances are sums of squares, hence nonnegative. -/
theorem sqDist_nonneg (q v : Vec) : 0 ≤ sqDist q v := by
  unfold sqDist
  apply List.sum_nonneg
  intro a ha
  rcases List.mem_map.mp ha with ⟨p, _, rfl⟩
  positivity

/-- The modelled FAISS search reports its results in ascending distance
order. -/
theorem searchIndex_sorted (vectors : List Vec) (q : Vec) (k : ℕ) :
    (searchIndex vectors q k).Pairwise distRel :=
  List.Pairwise.sublist (List.take_sublist _ _)
    (List.sorted_insertionSort distRel _)

/-- Every search result is a stored row index paired with its squared L2
distance to the query. -/
theorem searchIndex_mem (vectors : List Vec) (q : Vec) (k : ℕ) (x : ℕ × ℚ)
    (hx : x ∈ searchIndex vectors q k) :
    x.1 < vectors.length ∧ x.2 = sqDist q (vectors.getD x.1 []) := by
  unfold searchIndex at hx
  have hx2 := List.take_subset _ _ hx
  have hx3 := (List.perm_insertionSort distRel _).mem_iff.mp hx2
  rcases List.mem_map.mp hx3 with ⟨i, hi, rfl⟩
  exact ⟨List.mem_range.mp hi, rfl⟩

/-- The modelled FAISS search returns at most `top_n` results. -/
theorem searchIndex_len (vectors : List Vec) (q : Vec) (k : ℕ) :
    (searchIndex vectors q k).length ≤ k := by
  unfold searchIndex
  rw [List.length_take]
  exact min_le_left _ _

/-- C4: `find_similar_products` returns at most `top_n` results, every
returned score is at least `score_threshold`, the results are ordered by
descending score, each returned score is `1/(1+d)` for the squared L2
distance `d` between the query and that product's stored vector, and the
conversion `1/(1+d)` is strictly decreasing in the distance, so rank
order by distance is preserved. -/
theorem c4_query_contract (s : FAISSState) (q : Vec) (top_n : ℕ) (t : ℚ) :
    (find_similar_products s q top_n t).length ≤ top_n
    ∧ (∀ r ∈ find_similar_products s q top_n t, t ≤ r.2)
    ∧ (find_similar_products s q top_n t).Pairwise (fun a b => b.2 ≤ a.2)
    ∧ (∀ r ∈ find_similar_products s q top_n t, ∃ i, i < s.vectors.length
        ∧ r.1 = s.productIds.getD i 0
        ∧ r.2 = distScore (sqDist q (s.vectors.getD i [])))
    ∧ (∀ d1 d2 : ℚ, 0 ≤ d1 → d1 < d2 → distScore d2 < distScore d1) := by
  have hmono : ∀ d1 d2 : ℚ, 0 ≤ d1 → d1 < d2 → distScore d2 < distScore d1 := by
    intro d1 d2 h0 hlt
    unfold distScore
    exact one_div_lt_one_div_of_lt (by linarith) (by linarith)
  simp only [find_similar_products]
  by_cases hg : (searchIndex s.vectors q top_n).all
      (fun r => decide (r.1 < s.productIds.length)) = true
  · rw [if_pos hg]
    refine ⟨?_, ?_, ?_, ?_, hmono⟩
    · rw [List.length_map]
      exact le_trans (List.length_filter_le _ _) (searchIndex_len _ _ _)
    · intro r hr
      rcases List.mem_map.mp hr with ⟨x, hxf, rfl⟩
      exact of_decide_eq_true (List.mem_filter.mp hxf).2
    · rw [List.pairwise_map]
      apply List.Pairwise.imp_of_mem ?_
        (List.Pairwise.sublist (List.filter_sublist _) (searchIndex_sorted s.vectors q top_n))
      intro a b ha hb hab
      have h0a : 0 ≤ a.2 := by
        have := (searchIndex_mem s.vectors q top_n a
          (List.mem_filter.mp ha).1).2
        rw [this]
        exact sqDist_nonneg _ _
      unfold distScore
      exact one_div_le_one_div_of_le (by linarith) (by
        simpa [distRel] using hab)
    · intro r hr
      rcases List.mem_map.mp hr with ⟨x, hxf, rfl⟩
      have hx := searchIndex_mem s.vectors q top_n x (List.mem_filter.mp hxf).1
      exact ⟨x.1, hx.1, rfl, by rw [hx.2]⟩
  · rw [if_neg hg]
    exact ⟨Nat.zero_le _, by simp, by simp, by simp, hmono⟩

/-- C4 witness: the contract at a concrete index and query. -/
theorem c4_witness :
    (find_similar_products (⟨2, [1, 2], [[0, 0], [3, 4]]⟩ : FAISSState)
      [0, 0] 5 (7/10)).length ≤ 5
    ∧ (7/10 : ℚ) ≤ ((1 : ℤ), (1 : ℚ)).2 :=
  ⟨(c4_query_contract ⟨2, [1, 2], [[0, 0], [3, 4]]⟩ [0, 0] 5 (7/10)).1,
   (c4_query_contract ⟨2, [1, 2], [[0, 0], [3, 4]]⟩ [0, 0] 5 (7/10)).2.1 (1, 1)
     (by norm_num [find_similar_products, searchIndex, distScore, sqDist,
       distRel, List.insertionSort, List.orderedInsert])⟩

/-- C3 fails on the FAISS fallback: `find_similar_by_id` forwards the
stored vector to `find_similar_products` without excluding the reference
id, so a stored product is reported as similar to itself with score 1
(distance 0).  The Qdrant and Redis query paths do filter the reference
id out, and the spec requires the exclusion, so the missing filter is a
slip in `FAISSService.find_similar_by_id`. -/
theorem c3_self_included :
    find_similar_by_id (⟨2, [1], [[0, 0]]⟩ : FAISSState) 1 5 (7/10) = [(1, 1)]
    ∧ (1 : ℤ) ∈ (find_similar_by_id (⟨2, [1], [[0, 0]]⟩ : FAISSState) 1 5
        (7/10)).map Prod.fst := by
  constructor <;>
    norm_num [find_similar_by_id, get_embedding, find_similar_products,
      searchIndex, distScore, sqDist, distRel, List.insertionSort,
      List.orderedInsert]

/-- Mapping the kept positions of `delete_embedding` back to ids is the
same as filtering the deleted id out of the id list. -/
theorem keepFilter_ids (ids : List ℤ) (pid : ℤ) :
    (((List.range ids.length).filter (fun i => decide (ids.getD i 0 ≠ pid))).map
        (fun i => ids.getD i 0)) = ids.filter (fun x => decide (x ≠ pid)) := by
  induction ids with
  | nil => simp
  | cons a l ih =>
    simp only [List.getD_eq_getElem?_getD, ne_eq, decide_not] at ih
    by_cases hpa : a = pid
    · subst hpa
      simp [List.length_cons, List.range_succ_eq_map, List.filter_cons,
        List.filter_map, Function.comp_def, List.getElem?_cons_succ,
        Nat.succ_eq_add_one, List.map_map, ih]
    · simp [List.length_cons, List.range_succ_eq_map, List.filter_cons,
        List.filter_map, Function.comp_def, List.getElem?_cons_succ,
        Nat.succ_eq_add_one, List.map_map, hpa, ih]

/-- Mapping the kept positions of `delete_embedding` to (id, vector) pairs
is the same as filtering the deleted id's pairs out of the zipped lists. -/
theorem keepFilter_zip : ∀ (ids : List ℤ) (vecs : List Vec),
    ids.length = vecs.length → ∀ pid : ℤ,
    (((List.range ids.length).filter (fun i => decide (ids.getD i 0 ≠ pid))).map
        (fun i => (ids.getD i 0, vecs.getD i []))) =
      (ids.zip vecs).filter (fun e => decide (e.1 ≠ pid)) := by
  intro ids
  induction ids with
  | nil => intro vecs _ pid; simp
  | cons a l ih =>
    intro vecs hlen pid
    cases vecs with
    | nil => simp at hlen
    | cons b m =>
      have hlm : l.length = m.length := by simpa using hlen
      have ih2 := ih m hlm pid
      simp only [List.getD_eq_getElem?_getD, ne_eq, decide_not] at ih2
      by_cases hpa : a = pid
      · subst hpa
        simp [List.length_cons, List.range_succ_eq_map, List.filter_cons,
          List.filter_map, Function.comp_def, List.getElem?_cons_succ,
          Nat.succ_eq_add_one, List.map_map, List.zip_cons_cons, ih2]
      · simp [List.length_cons, List.range_succ_eq_map, List.filter_cons,
          List.filter_map, Function.comp_def, List.getElem?_cons_succ,
          Nat.succ_eq_add_one, List.map_map, List.zip_cons_cons, hpa, ih2]

/-- Filtering an id out leaves no occurrence of it. -/
theorem filter_ne_count_zero (l : List ℤ) (pid : ℤ) :
    (l.filter (fun x => decide (x ≠ pid))).count pid = 0 := by
  rw [List.count_eq_zero]
  intro h
  have h2 := (List.mem_filter.mp h).2
  simp at h2

/-- Filtering out an id that is not present changes nothing. -/
theorem filter_ne_of_not_mem (l : List ℤ) (pid : ℤ) (h : pid ∉ l) :
    l.filter (fun x => decide (x ≠ pid)) = l := by
  apply List.filter_eq_self.mpr
  intro x hx
  simp only [ne_eq, decide_eq_true_eq]
  rintro rfl
  exact h hx

/-- Filtering out the pairs of an id that is not present changes
nothing. -/
theorem zip_filter_ne_of_not_mem (ids : List ℤ) (vecs : List Vec) (pid : ℤ)
    (h : pid ∉ ids) :
    (ids.zip vecs).filter (fun e => decide (e.1 ≠ pid)) = ids.zip vecs := by
  apply List.filter_eq_self.mpr
  intro e he
  obtain ⟨a, b⟩ := e
  have ha := (List.of_mem_zip he).1
  simp only [ne_eq, decide_eq_true_eq]
  rintro rfl
  exact h ha

/-- On a length-consistent state, `delete_embedding` keeps the id list
equal to the old one with every occurrence of the deleted id removed,
keeps the two lists equally long, and preserves the positional
id-to-vector association. -/
theorem delete_embedding_spec (s : FAISSState) (pid : ℤ)
    (hlen : s.productIds.length = s.vectors.length) :
    (delete_embedding s pid).2.productIds
      = s.productIds.filter (fun x => decide (x ≠ pid))
    ∧ (delete_embedding s pid).2.productIds.length
      = (delete_embedding s pid).2.vectors.length
    ∧ (delete_embedding s pid).2.productIds.zip (delete_embedding s pid).2.vectors
      = (s.productIds.zip s.vectors).filter (fun e => decide (e.1 ≠ pid)) := by
  by_cases hm : pid ∈ s.productIds
  · simp only [delete_embedding, if_pos hm]
    by_cases hk : (List.range s.productIds.length).filter
        (fun i => decide (s.productIds.getD i 0 ≠ pid)) = []
    · rw [if_pos hk]
      have h1 := keepFilter_ids s.productIds pid
      have h2 := keepFilter_zip s.productIds s.vectors hlen pid
      rw [hk] at h1 h2
      simp only [List.map_nil] at h1 h2
      exact ⟨h1, rfl, by simpa using h2⟩
    · rw [if_neg hk]
      have hall : ((List.range s.productIds.length).filter
          (fun i => decide (s.productIds.getD i 0 ≠ pid))).all
          (fun i => decide (i < s.vectors.length)) = true := by
        rw [List.all_eq_true]
        intro i hi
        have hir : i < s.productIds.length :=
          List.mem_range.mp (List.mem_filter.mp hi).1
        simpa using (hlen ▸ hir)
      rw [if_pos hall]
      refine ⟨keepFilter_ids s.productIds pid, by simp, ?_⟩
      rw [List.zip_map']
      exact keepFilter_zip s.productIds s.vectors hlen pid
  · simp only [delete_embedding, if_neg hm]
    exact ⟨(filter_ne_of_not_mem _ _ hm).symm, hlen,
      (zip_filter_ne_of_not_mem _ _ _ hm).symm⟩

/-- C9: on a length-consistent state every FAISS-service operation keeps
`product_ids` exactly as long as the stored rows and keeps the positional
association between ids and vectors: a successful `save_embedding`
appends one (id, vector) pair, a successful `save_embeddings_batch`
appends the zipped batch, failures leave the state untouched,
`delete_embedding` removes exactly the pairs of the deleted id (every
occurrence, so its count drops to zero), and `load_index` of a consistent
durable pair yields a consistent state. -/
theorem c9_parallel_lists (s : FAISSState) (pid : ℤ) (v : Vec) (ids : List ℤ)
    (vecs : List Vec) (disk : Option (List ℤ × List Vec))
    (hlen : s.productIds.length = s.vectors.length) :
    ((save_embedding s pid v).2.productIds.length
        = (save_embedding s pid v).2.vectors.length
      ∧ ((save_embedding s pid v).1 = true →
          (save_embedding s pid v).2.productIds.zip
            (save_embedding s pid v).2.vectors
            = s.productIds.zip s.vectors ++ [(pid, v)])
      ∧ ((save_embedding s pid v).1 = false → (save_embedding s pid v).2 = s))
    ∧ ((save_embeddings_batch s ids vecs).2.productIds.length
        = (save_embeddings_batch s ids vecs).2.vectors.length
      ∧ ((save_embeddings_batch s ids vecs).1 = true →
          (save_embeddings_batch s ids vecs).2.productIds.zip
            (save_embeddings_batch s ids vecs).2.vectors
            = s.productIds.zip s.vectors ++ ids.zip vecs)
      ∧ ((save_embeddings_batch s ids vecs).1 = false →
          (save_embeddings_batch s ids vecs).2 = s))
    ∧ ((delete_embedding s pid).2.productIds.length
        = (delete_embedding s pid).2.vectors.length
      ∧ (delete_embedding s pid).2.productIds
          = s.productIds.filter (fun x => decide (x ≠ pid))
      ∧ (delete_embedding s pid).2.productIds.zip
          (delete_embedding s pid).2.vectors
          = (s.productIds.zip s.vectors).filter (fun e => decide (e.1 ≠ pid))
      ∧ (delete_embedding s pid).2.productIds.count pid = 0)
    ∧ (∀ d, disk = some d → d.1.length = d.2.length →
        (load_index s disk).productIds.length
          = (load_index s disk).vectors.length) := by
  refine ⟨?_, ?_, ?_, ?_⟩
  · by_cases hv : v.length = s.dimension
    · rw [save_embedding, if_pos hv]
      refine ⟨?_, fun _ => ?_, fun hf => ?_⟩
      · simp [hlen]
      · simp [List.zip_append hlen]
      · simp at hf
    · rw [save_embedding, if_neg hv]
      exact ⟨hlen, fun ht => by simp at ht, fun _ => rfl⟩
  · by_cases hg : ids.length = 0 ∨ ids.length ≠ vecs.length
    · rw [save_embeddings_batch, if_pos hg]
      exact ⟨hlen, fun ht => by simp at ht, fun _ => rfl⟩
    · have hlv : ids.length = vecs.length := by
        push_neg at hg
        exact hg.2
      by_cases hall : vecs.all (fun w => decide (w.length = s.dimension)) = true
      · rw [save_embeddings_batch, if_neg hg, if_pos hall]
        refine ⟨?_, fun _ => ?_, fun hf => ?_⟩
        · simp [hlen, hlv]
        · simp [List.zip_append hlen]
        · simp at hf
      · rw [save_embeddings_batch, if_neg hg, if_neg hall]
        exact ⟨hlen, fun ht => by simp at ht, fun _ => rfl⟩
  · obtain ⟨h1, h2, h3⟩ := delete_embedding_spec s pid hlen
    exact ⟨h2, h1, h3, by rw [h1]; exact filter_ne_count_zero _ _⟩
  · intro d hd hdl
    subst hd
    simpa [load_index] using hdl

/-- C9 witness: the invariant at a concrete state, save and delete. -/
theorem c9_witness :
    (save_embedding (⟨2, [1], [[0, 0]]⟩ : FAISSState) 2 [1, 1]).2.productIds.length
      = (save_embedding (⟨2, [1], [[0, 0]]⟩ : FAISSState) 2 [1, 1]).2.vectors.length
    ∧ (delete_embedding (⟨2, [1], [[0, 0]]⟩ : FAISSState) 1).2.productIds.count 1
      = 0 :=
  ⟨(c9_parallel_lists ⟨2, [1], [[0, 0]]⟩ 2 [1, 1] [3] [[2, 2]] none
      (by norm_num)).1.1,
   (c9_parallel_lists ⟨2, [1], [[0, 0]]⟩ 1 [1, 1] [3] [[2, 2]] none
      (by norm_num)).2.2.1.2.2.2⟩

/-- Integer ceiling division is at least 1 and covers the dividend, for
positive arguments. -/
theorem ceilDiv_bounds (P a : ℤ) (hP : 1 ≤ P) (ha : 1 ≤ a) :
    1 ≤ ceilDiv P a ∧ P ≤ a * ceilDiv P a := by
  have h0 : a ≠ 0 := by omega
  have h1 := Int.ediv_add_emod (P + a - 1) a
  have h2 := Int.emod_nonneg (P + a - 1) h0
  have h3 := Int.emod_lt_of_pos (P + a - 1) (by omega : (0:ℤ) < a)
  unfold ceilDiv
  constructor
  · by_contra hq
    push_neg at hq
    have hq0 : (P + a - 1) / a ≤ 0 := by omega
    have hm : a * ((P + a - 1) / a) ≤ 0 :=
      mul_nonpos_of_nonneg_of_nonpos (by omega) hq0
    linarith
  · linarith

/-- The dispatch loop with stride `per`, starting at iteration `i` with
`fuel` iterations left, emits WorkUnits whose page lists concatenate to
exactly the remaining page range, whose page counts are between 1 and
`per`, and whose page counts sum to the remaining page total. -/
theorem chunkLoop_spec (total start per P : ℤ) (hper : 1 ≤ per)
    (htot : start + P - 1 ≤ total) :
    ∀ (fuel i : ℕ), P ≤ ((i : ℤ) + (fuel : ℤ)) * per →
      ((chunkLoop total start per P i fuel).flatMap pagesOf
          = (List.range (P - (i : ℤ) * per).toNat).map
              (fun (j : ℕ) => start + (i : ℤ) * per + (j : ℤ)))
      ∧ (∀ u ∈ chunkLoop total start per P i fuel, 1 ≤ u.2 ∧ u.2 ≤ per)
      ∧ ((chunkLoop total start per P i fuel).map Prod.snd).sum
          = max (P - (i : ℤ) * per) 0 := by
  intro fuel
  induction fuel with
  | zero =>
    intro i hf
    have hif : P ≤ (i : ℤ) * per := by
      push_cast at hf
      linarith
    have hz : (P - (i : ℤ) * per).toNat = 0 :=
      Int.toNat_eq_zero.mpr (by linarith)
    refine ⟨by simp [chunkLoop, hz], by simp [chunkLoop], ?_⟩
    simp [chunkLoop, max_eq_right (by linarith : P - (i : ℤ) * per ≤ 0)]
  | succ fuel ih =>
    intro i hf
    have hf' : P ≤ (((i + 1 : ℕ) : ℤ) + (fuel : ℤ)) * per := by
      push_cast at hf ⊢
      linarith [hf]
    obtain ⟨A, B, C⟩ := ih (i + 1) hf'
    have hm' : (((i + 1 : ℕ)) : ℤ) * per = (i : ℤ) * per + per := by
      push_cast
      ring
    rw [hm'] at A C
    simp only [chunkLoop]
    by_cases hbr : start + (i : ℤ) * per > total
    · rw [if_pos hbr]
      have hP0 : P - 1 < (i : ℤ) * per := by linarith
      have hP1 : P ≤ (i : ℤ) * per := by
        have := Int.lt_iff_add_one_le.mp hP0
        linarith
      have hz : (P - (i : ℤ) * per).toNat = 0 :=
        Int.toNat_eq_zero.mpr (by linarith)
      refine ⟨by simp [hz], by simp, ?_⟩
      simp [max_eq_right (by linarith : P - (i : ℤ) * per ≤ 0)]
    · rw [if_neg hbr]
      have hcs_le : start + (i : ℤ) * per ≤ total := not_lt.mp hbr
      have hbc : P - (i : ℤ) * per ≤ total - (start + (i : ℤ) * per) + 1 := by
        linarith
      have hnp_eq : min (min per (total - (start + (i : ℤ) * per) + 1))
          (P - (i : ℤ) * per) = min per (P - (i : ℤ) * per) := by
        rw [min_assoc, min_eq_right hbc]
      rw [hnp_eq]
      by_cases hnp : min per (P - (i : ℤ) * per) ≤ 0
      · rw [if_pos hnp]
        have hr0 : P - (i : ℤ) * per ≤ 0 := by
          by_contra hr
          push_neg at hr
          have := lt_min (by linarith : (0 : ℤ) < per) hr
          linarith
        have hz1 : (P - (i : ℤ) * per).toNat = 0 :=
          Int.toNat_eq_zero.mpr hr0
        have hz2 : (P - ((i : ℤ) * per + per)).toNat = 0 :=
          Int.toNat_eq_zero.mpr (by linarith)
        rw [hz2] at A
        refine ⟨?_, B, ?_⟩
        · rw [hz1]
          simpa using A
        · rw [C]
          have e1 : max (P - ((i : ℤ) * per + per)) 0 = 0 :=
            max_eq_right (by linarith)
          have e2 : max (P - (i : ℤ) * per) 0 = 0 := max_eq_right hr0
          rw [e1, e2]
      · rw [if_neg hnp]
        push_neg at hnp
        have hr1 : 1 ≤ P - (i : ℤ) * per := by
          by_contra hr
          push_neg at hr
          have hrr : P - (i : ℤ) * per ≤ 0 := by linarith
          have := min_le_right per (P - (i : ℤ) * per)
          linarith
        have hnp1 : 1 ≤ min per (P - (i : ℤ) * per) :=
          le_min hper hr1
        have hsplit : (P - (i : ℤ) * per).toNat
            = (min per (P - (i : ℤ) * per)).toNat
              + (P - ((i : ℤ) * per + per)).toNat := by
          generalize hgm : (i : ℤ) * per = m at hr1 ⊢
          omega
        refine ⟨?_, ?_, ?_⟩
        · rw [List.flatMap_cons, A, hsplit, List.range_add, List.map_append,
            List.map_map]
          congr 1
          apply List.map_congr_left
          intro a ha
          simp only [Function.comp_apply]
          have haz := List.mem_range.mp ha
          have hx : ((a : ℤ)) < P - ((i : ℤ) * per + per) := by
            generalize hgm : (i : ℤ) * per = m at haz ⊢
            omega
          have hmin : min per (P - (i : ℤ) * per) = per :=
            min_eq_left (by linarith)
          have hcast : ((min per (P - (i : ℤ) * per)).toNat : ℤ) = per := by
            rw [hmin]
            exact Int.toNat_of_nonneg (by linarith)
          push_cast [hcast]
          ring
        · intro u hu
          rcases List.mem_cons.mp hu with rfl | hu2
          · exact ⟨hnp1, min_le_left _ _⟩
          · exact B u hu2
        · rw [List.map_cons, List.sum_cons, C]
          generalize hgm : (i : ℤ) * per = m at hr1 ⊢
          omega

/-- C2: under the preconditions `1 <= start_page <= total_pages` and a
positive worker count, the WorkUnits of `generate_embeddings_old` cover
the processed page range `start_page .. start_page + pages_to_process - 1`
exactly (their page lists concatenate, in order and without gaps or
overlaps, to that range), their page counts sum to `pages_to_process`,
every unit has at least one page, and the spec's concrete case
`total_pages = 37, start_page = 1, worker_count = 4` yields 4 units of
sizes 10, 10, 10, 7 covering pages 1..37 with every size at most 10. -/
theorem c2_partition (total start N : ℤ) (cap : Option ℤ)
    (h1 : 1 ≤ start) (h2 : start ≤ total) (h3 : 1 ≤ N) :
    ((workUnits total start N cap).flatMap pagesOf
        = (List.range (pagesToProcess total start cap).toNat).map
            (fun (j : ℕ) => start + (j : ℤ)))
    ∧ (((workUnits total start N cap).map Prod.snd).sum
        = max (pagesToProcess total start cap) 0)
    ∧ (∀ u ∈ workUnits total start N cap, 1 ≤ u.2)
    ∧ workUnits 37 1 4 none = [(1, 10), (11, 10), (21, 10), (31, 7)] := by
  have hconc : workUnits 37 1 4 none = [(1, 10), (11, 10), (21, 10), (31, 7)] := by
    decide
  simp only [workUnits, if_neg (not_lt.mpr h2)]
  set P := pagesToProcess total start cap with hP
  by_cases hP0 : P ≤ 0
  · rw [if_pos hP0]
    refine ⟨?_, ?_, by simp, hconc⟩
    · have hz : P.toNat = 0 := Int.toNat_eq_zero.mpr hP0
      simp [hz]
    · simp [max_eq_right hP0]
  · rw [if_neg hP0]
    push_neg at hP0
    have hP1 : 1 ≤ P := hP0
    have hPle : P ≤ total - start + 1 := by
      rw [hP]
      unfold pagesToProcess
      cases cap with
      | none => simp
      | some c => simp [min_le_left]
    set actual0 := min N P with ha0
    have hact0 : 1 ≤ actual0 := le_min h3 hP1
    have hcond : ¬ actual0 ≤ 0 := by linarith
    rw [if_neg hcond]
    obtain ⟨hper1, hperP⟩ := ceilDiv_bounds P actual0 hP1 hact0
    have htoNat : ((actual0.toNat : ℤ)) = actual0 := Int.toNat_of_nonneg (by linarith)
    have hf : P ≤ (((0 : ℕ) : ℤ) + (actual0.toNat : ℤ)) * ceilDiv P actual0 := by
      push_cast [htoNat]
      calc P ≤ actual0 * ceilDiv P actual0 := hperP
        _ = (0 + actual0) * ceilDiv P actual0 := by ring
    obtain ⟨A, B, C⟩ := chunkLoop_spec total start (ceilDiv P actual0) P hper1
      (by linarith) actual0.toNat 0 hf
    refine ⟨?_, ?_, ?_, hconc⟩
    · simpa using A
    · simpa using C
    · intro u hu
      exact (B u hu).1

/-- C2 witness: the partition at the spec's concrete example. -/
theorem c2_witness :
    workUnits 37 1 4 none = [(1, 10), (11, 10), (21, 10), (31, 7)] :=
  (c2_partition 37 1 4 none (by norm_num) (by norm_num) (by norm_num)).2.2.2

end FashionProc
